import Mathlib

/-!
Verification of the URL-resolution / catalog-lookup / request-redirection
layer of the Ruffle-player repository.

Strings are modelled as lists of Unicode code points (`List Nat`); each
JavaScript string function used by the repository is translated into a
Lean function on such lists.  ASCII case mapping is modelled exactly;
the sources' data (ids, URLs, rule tables) is ASCII.
-/

namespace RufflePlayer

/-- A JavaScript string, as its list of code points. -/
abbrev Str := List Nat

/-- Code points of a Lean string literal (used to state concrete facts). -/
def str (s : String) : Str := s.data.map Char.toNat

/-- A code point in `[a-z0-9]`, the character class kept by
`makeUrlFriendly`'s regex (src/assets/js/game-url-loader.js:230). -/
def isAlnum (c : Nat) : Bool := decide ((97 ≤ c ∧ c ≤ 122) ∨ (48 ≤ c ∧ c ≤ 57))

/-- A `\w` code point (`[A-Za-z0-9_]`), as in `createSlug`'s regex
(src/assets/js/game-url-loader.js:880). -/
def isWordChar (c : Nat) : Bool :=
  decide ((97 ≤ c ∧ c ≤ 122) ∨ (65 ≤ c ∧ c ≤ 90) ∨ (48 ≤ c ∧ c ≤ 57) ∨ c = 95)

/-- A JavaScript `\s` / `trim` whitespace code point. -/
def isSpace (c : Nat) : Bool :=
  decide (c = 32 ∨ c = 9 ∨ c = 10 ∨ c = 11 ∨ c = 12 ∨ c = 13 ∨ c = 160 ∨
    c = 5760 ∨ c = 8192 ∨ c = 8193 ∨ c = 8194 ∨ c = 8195 ∨ c = 8196 ∨
    c = 8197 ∨ c = 8198 ∨ c = 8199 ∨ c = 8200 ∨ c = 8201 ∨ c = 8202 ∨
    c = 8232 ∨ c = 8233 ∨ c = 8239 ∨ c = 8287 ∨ c = 12288 ∨ c = 65279)

/-- JavaScript `String.prototype.toLowerCase` on one ASCII code point
(`A-Z` maps to `a-z`, everything else is fixed; the repository's data is
ASCII). -/
def lowerChar (c : Nat) : Nat := if 65 ≤ c ∧ c ≤ 90 then c + 32 else c

/-- JavaScript `String.prototype.toLowerCase`. -/
def lowerStr (s : Str) : Str := s.map lowerChar

/-- JavaScript `s.replace(/P+/g, sep)` for a one-character class `P`: every maximal
run of code points satisfying `p` becomes the single code point `sep`.
The flag records whether the previous input code point was part of a run
whose separator has already been emitted. -/
def collapseRunsBy (p : Nat → Bool) (sep : Nat) : Bool → Str → Str
  | _, [] => []
  | inRun, c :: rest =>
    if p c then
      if inRun then collapseRunsBy p sep true rest
      else sep :: collapseRunsBy p sep true rest
    else c :: collapseRunsBy p sep false rest

/-- Drop the maximal trailing run of code points satisfying `p`
(the `X+$` half of a `replace(/^X+|X+$/g, '')`, or the right half of
`trim`). -/
def dropTrailingBy (p : Nat → Bool) : Str → Str
  | [] => []
  | c :: rest =>
    let r := dropTrailingBy p rest
    if r.isEmpty && p c then [] else c :: r

/-- JavaScript `String.prototype.trim`. -/
def jsTrim (s : Str) : Str := dropTrailingBy isSpace (s.dropWhile isSpace)

/-- JavaScript `s.replace(/^-+|-+$/g, '')`: strip leading and trailing hyphen runs
(hyphen-minus is code point 45). -/
def stripDashes (s : Str) : Str :=
  dropTrailingBy (fun c => c == 45) (s.dropWhile (fun c => c == 45))

/-- JavaScript `s.replace(/[^a-z0-9]+/g, '-')` as used by `makeUrlFriendly`. -/
def dashRuns (s : Str) : Str := collapseRunsBy (fun c => !isAlnum c) 45 false s

/-- Function `makeUrlFriendly` (src/assets/js/game-url-loader.js:225-233):
`if (!str) return ''`, then lower-case, replace non-alphanumeric runs
with hyphens, strip leading/trailing hyphens, and `trim()`. -/
def makeUrlFriendly (s : Str) : Str :=
  if s.isEmpty then [] else jsTrim (stripDashes (dashRuns (lowerStr s)))

/-- Modelled from the spec: the Normalizer contract of spec §4.1 —
lower-case the input, replace every maximal run of characters outside
`[a-z0-9]` with a single separator (hyphen), strip leading and trailing
separators.  Used only to compare against code definitions. -/
def normalizeSpec (s : Str) : Str := stripDashes (dashRuns (lowerStr s))

/-- Function `createSlug` (src/assets/js/game-url-loader.js:874-884):
`if (!str) return ''`, then lower-case, `trim()`, remove characters
outside `[\w\s-]`, replace whitespace runs with hyphens, collapse hyphen
runs, strip leading/trailing hyphens. -/
def createSlug (s : Str) : Str :=
  if s.isEmpty then []
  else
    stripDashes (collapseRunsBy (fun c => c == 45) 45 false
      (collapseRunsBy isSpace 45 false
        (List.filter (fun c => isWordChar c || isSpace c || c == 45)
          (jsTrim (lowerStr s)))))

/-! ## Request Redirector (src/redirector.js) -/

/-- One `(from, to)` literal substring mapping of `urlMappings`
(src/redirector.js:12-33).  `from` is a Lean keyword, hence the field
names `fromUrl`/`toUrl`. -/
structure RedirectRule where
  fromUrl : Str
  toUrl : Str
deriving DecidableEq, Repr

/-- JavaScript `String.prototype.includes`: `needle` occurs as a contiguous
substring of `hay`. -/
def containsSub (needle : Str) (hay : Str) : Bool :=
  needle.isPrefixOf hay ||
    match hay with
    | [] => false
    | _ :: rest => containsSub needle rest

/-- JavaScript `hay.replace(needle, repl)` with a string pattern: replace the
leftmost occurrence of `needle` (if any) by `repl`. -/
def replaceFirst (needle repl : Str) (hay : Str) : Str :=
  if needle.isPrefixOf hay then repl ++ hay.drop needle.length
  else
    match hay with
    | [] => []
    | c :: rest => c :: replaceFirst needle repl rest

/-- The default rule table `urlMappings` (src/redirector.js:12-33), in
declared order. -/
def urlMappings : List RedirectRule :=
  [ ⟨str ("https://cdn.nitrome.com/components/NitromeAPI.pkg"),
     str ("https://cdn.xperia.pt/NitromeAPI.pkg")⟩,
    ⟨str ("https://jogos.ipv7.pt/txtGDE.swf"),
     str ("https://cdn.xperia.pt/laserquest/txtGDE.swf")⟩,
    ⟨str ("https://jogos.ipv7.pt/faq.swf"),
     str ("https://cdn.xperia.pt/laserquest/faq.swf")⟩,
    ⟨str ("https://jogos.ipv7.pt/hora.swf"),
     str ("https://cdn.xperia.pt/laserquest/hora.swf")⟩,
    ⟨str ("https://jogos.ipv7.pt/nov.swf"),
     str ("https://cdn.xperia.pt/laserquest/nov.swf")⟩ ]

/-- The `for (const mapping of urlMappings)` loop body of `redirectUrl`
(src/redirector.js:36-48), over an arbitrary rule list. -/
def applyMappings : List RedirectRule → Str → Str
  | [], url => url
  | m :: rest, url =>
    if containsSub m.fromUrl url then replaceFirst m.fromUrl m.toUrl url
    else applyMappings rest url

/-- Function `redirectUrl` (src/redirector.js:36-48) on a string argument. -/
def redirectUrl (url : Str) : Str := applyMappings urlMappings url

/-! ## Catalog store and resolver (src/assets/js/game-url-loader.js) -/

/-- A catalog entry as used by the loader: the `id`, `name` and `path`
fields of a parsed game object.  An absent or empty (hence falsy) field
is the empty string, matching every truthiness test the code performs on
these fields. -/
structure Game where
  id : Str
  name : Str
  path : Str
deriving DecidableEq, Repr

/-- The `gamesData` object: JavaScript object properties in insertion
order, keys unique by construction. -/
abbrev Table := List (Str × Game)

/-- JavaScript property read `obj[key]` on such a table. -/
def lookupAssoc : Table → Str → Option Game
  | [], _ => none
  | (k, g) :: rest, key => if k = key then some g else lookupAssoc rest key

/-- JavaScript property write `obj[key] = v`: an existing key keeps its
insertion position and gets the new value; a new key is appended. -/
def insertAssoc : Table → Str → Game → Table
  | [], key, v => [(key, v)]
  | (k, g) :: rest, key, v =>
    if k = key then (k, v) :: rest else (k, g) :: insertAssoc rest key v

/-- The `for (const [id, game] of Object.entries(gamesData))` loop of
`findGameByUrlName` (src/assets/js/game-url-loader.js:204-217): per
entry, first the case-insensitive `id` test, then the url-friendly-name
test. -/
def findLoop : Table → Str → Option Game
  | [], _ => none
  | (_, g) :: rest, searchName =>
    if ¬g.id.isEmpty ∧ lowerStr g.id = searchName then some g
    else if ¬g.name.isEmpty ∧ makeUrlFriendly g.name = searchName then some g
    else findLoop rest searchName

/-- Function `findGameByUrlName` (src/assets/js/game-url-loader.js:190-220) with
the already-loaded table as an argument (the `!gamesData` early return
is the `none` case of `GameUrlLoader` state, see `getGames`). -/
def findGameByUrlName (tbl : Table) (urlName : Str) : Option Game :=
  if urlName.isEmpty then none
  else
    let searchName := lowerStr urlName
    match lookupAssoc tbl searchName with
    | some g => some g
    | none => findLoop tbl searchName

/-- Modelled from the spec: the second resolution pass of spec §4.2 on
its own — scan entries in declared order and return the first whose
display name matches the search key via `makeUrlFriendly`; used to state
that the code's interleaved loop reduces to it when no id matches. -/
def nameScan : Table → Str → Option Game
  | [], _ => none
  | (_, g) :: rest, searchName =>
    if ¬g.name.isEmpty ∧ makeUrlFriendly g.name = searchName then some g
    else nameScan rest searchName

/-! ## Catalog loading (`loadGamesData`, src/assets/js/game-url-loader.js:93-168) -/

/-- A JSON value sitting under one key of the fetched document:
a game-like object, an array of game objects, or a primitive (string,
number, boolean) with the given truthiness.  (`null` values are not
modelled.) -/
inductive JVal where
  | jgame (g : Game)
  | jarr (gs : List Game)
  | jother (truthy : Bool)
deriving DecidableEq, Repr

/-- The parsed `games.json` document: an object with keys in order, or a
top-level array. -/
inductive JsonData where
  | jobj (entries : List (Str × JVal))
  | jarrTop (gs : List Game)
deriving DecidableEq, Repr

/-- Property read on the parsed document. -/
def jlookup : List (Str × JVal) → Str → Option JVal
  | [], _ => none
  | (k, v) :: rest, key => if k = key then some v else jlookup rest key

/-- Truthiness of `jsonData.nitromeGames` (objects and arrays are always
truthy). -/
def hasTruthyNitrome (es : List (Str × JVal)) : Bool :=
  match jlookup es (str ("nitromeGames")) with
  | some (.jgame _) => true
  | some (.jarr _) => true
  | some (.jother t) => t
  | none => false

/-- Case 1 of `loadGamesData` (lines 108-119): for an object-typed value
under key `k`, store `{ id: k, ...game }` at key `k.toLowerCase()`.
Spreading a game object overrides `id` when the object has one;
spreading an array contributes no modelled fields. -/
def case1Store (k : Str) (v : JVal) : Option (Str × Game) :=
  match v with
  | .jgame g =>
      some (lowerStr k, if g.id.isEmpty then { g with id := k } else g)
  | .jarr _ => some (lowerStr k, { id := k, name := [], path := [] })
  | .jother _ => none

/-- Case 2 (lines 122-130): the `nitromeGames` value when it is an
array. -/
def case2Games (es : List (Str × JVal)) : List Game :=
  match jlookup es (str ("nitromeGames")) with
  | some (.jarr gs) => gs
  | _ => []

/-- Case 3 (lines 133-143): all other array-valued keys, in key order. -/
def case3Games (es : List (Str × JVal)) : List Game :=
  (es.filterMap (fun kv =>
    match kv with
    | (k, .jarr gs) => if k = str ("nitromeGames") then none else some gs
    | _ => none)).flatten

/-- All games contributed by array values, in processing order (Case 2
before Case 3; a top-level array is Case 4). -/
def arrayGames : JsonData → List Game
  | .jobj es => case2Games es ++ case3Games es
  | .jarrTop gs => gs

/-- The `if (game.id) processedGames[game.id.toLowerCase()] = game`
step shared by Cases 2, 3 and 4. -/
def insertGame (t : Table) (g : Game) : Table :=
  if g.id.isEmpty then t else insertAssoc t (lowerStr g.id) g

/-- The table built by `loadGamesData` (lines 103-154): Case 1 (only
when `nitromeGames` is absent or falsy), then the array cases in
order. -/
def processGames : JsonData → Table
  | .jobj es =>
      let t0 : Table :=
        if hasTruthyNitrome es then []
        else (es.filterMap (fun kv => case1Store kv.1 kv.2)).foldl
          (fun t kg => insertAssoc t kg.1 kg.2) []
      (case2Games es ++ case3Games es).foldl insertGame t0
  | .jarrTop gs => gs.foldl insertGame []

/-- Function `loadGamesData`'s return value on a successfully fetched and parsed
document: `null` when no games were found (lines 156-160), else the
table. -/
def loadGamesData (d : JsonData) : Option Table :=
  let t := processGames d
  if t.isEmpty then none else some t

/-- Well-formedness of a built table: keys are unique, and every entry
sits under the lower-cased form of its (nonempty) id.  This is the shape
`loadGamesData` produces for catalog documents as described by spec §6
(arrays of entries); see `wfSource_processGames`. -/
def wfTable (t : Table) : Prop :=
  (t.map Prod.fst).Nodup ∧ ∀ kg ∈ t, kg.2.id ≠ [] ∧ kg.1 = lowerStr kg.2.id

instance : DecidablePred wfTable := fun t => by
  unfold wfTable; infer_instance

/-- Documents whose built table is well-formed: a top-level array, or an
object whose Case-1 pass is either skipped (truthy `nitromeGames`) or
only produces entries keyed by their own lower-cased id. -/
def case1Ok (k : Str) (v : JVal) : Bool :=
  match v with
  | .jgame g => if g.id.isEmpty then !k.isEmpty else lowerStr k == lowerStr g.id
  | .jarr _ => !k.isEmpty
  | .jother _ => true

/-- See `case1Ok`. -/
def wfSource : JsonData → Bool
  | .jarrTop _ => true
  | .jobj es => hasTruthyNitrome es || es.all (fun kv => case1Ok kv.1 kv.2)

/-! ## Recently-played list (src/assets/js/game-url-loader.js:1010-1032) -/

/-- Function `addToRecentlyPlayed`: filter out the id, `unshift` it, `pop` when
the length exceeds 10. -/
def addToRecentlyPlayed (l : List Str) (gameId : Str) : List Str :=
  let filtered := l.filter (fun id => id ≠ gameId)
  let unshifted := gameId :: filtered
  if unshifted.length > 10 then unshifted.dropLast else unshifted

/-! ## Navigation (src/assets/js/script.js:181-251) -/

/-- The mutable page state touched by `loadGame`: `currentGame`, and
which game the info panel and the player container currently show. -/
structure NavState where
  currentGame : Option Str
  infoPanelGame : Option Str
  playerGame : Option Str
deriving DecidableEq, Repr

/-- One event of the async `loadGame` flow.  `start id` is the
synchronous prefix of `loadGame(id)` up to the `await fetch(gamePath,
{method: 'HEAD'})` (it assigns `currentGame = gameId`, line 193);
`complete id` is the continuation after a successful HEAD response
(it rewrites the player container and calls `updateInfoPanel(gameId,
...)`, lines 216-246, with no staleness check of any kind). -/
inductive NavEvent where
  | start (id : Str)
  | complete (id : Str)
deriving DecidableEq, Repr

/-- Effect of one event on the page state. -/
def navStep (s : NavState) (e : NavEvent) : NavState :=
  match e with
  | .start id => { s with currentGame := some id }
  | .complete id => { s with infoPanelGame := some id, playerGame := some id }

/-- Run a sequence of interleaved events. -/
def navRun (s : NavState) (es : List NavEvent) : NavState := es.foldl navStep s

/-- Page state before any navigation. -/
def navInit : NavState := ⟨none, none, none⟩

/-- The id of the most recently issued navigation in a trace. -/
def lastStarted (es : List NavEvent) : Option Str :=
  es.foldl (fun a e => match e with | .start id => some id | .complete _ => a) none

/-- The id of the most recently completed load in a trace. -/
def lastCompleted (es : List NavEvent) : Option Str :=
  es.foldl (fun a e => match e with | .complete id => some id | .start _ => a) none

/-! ## `GameUrlLoader.getGames` (src/assets/js/game-url-loader.js:516)

The aliasing claim needs object identity, so this part of the model
carries an explicit object heap: an object is an address into `objs`,
and `{...gamesData}` allocates a fresh object with the same
properties. -/

/-- The property list of one heap object. -/
abbrev Obj := List (Str × Game)

/-- The object heap; an address is an index into `objs`. -/
structure Heap where
  objs : List Obj
deriving DecidableEq, Repr

/-- Allocate a fresh object, returning the new heap and its address. -/
def allocObj (h : Heap) (o : Obj) : Heap × Nat := (⟨h.objs ++ [o]⟩, h.objs.length)

/-- Read an object's properties. -/
def readObj (h : Heap) (a : Nat) : Obj := (h.objs[a]?).getD []

/-- Mutate one property of the object at `a` (what a caller would do to
the returned object). -/
def writeField (h : Heap) (a : Nat) (k : Str) (g : Game) : Heap :=
  ⟨h.objs.set a (insertAssoc (readObj h a) k g)⟩

/-- Method `getGames: () => gamesData ? {...gamesData} : null` — the internal
state is the address of `gamesData` (or `none` before loading); a load
returns a fresh shallow copy. -/
def getGames (h : Heap) (gamesData : Option Nat) : Heap × Option Nat :=
  match gamesData with
  | none => (h, none)
  | some a =>
      let p := allocObj h (readObj h a)
      (p.1, some p.2)

/-! ## Normalizer lemmas -/

/-- No two adjacent code points both satisfy `p`. -/
def noRunPair (p : Nat → Bool) : Str → Bool
  | c :: d :: rest => (!(p c && p d)) && noRunPair p (d :: rest)
  | _ => true

/-- The first code point (if any) does not satisfy `p`. -/
def noLeadP (p : Nat → Bool) : Str → Bool
  | [] => true
  | c :: _ => !p c

/-- The last code point (if any) does not satisfy `p`. -/
def noTrailP (p : Nat → Bool) : Str → Bool
  | [] => true
  | [c] => !p c
  | _ :: rest => noTrailP p rest

theorem noRunPair_tail {p : Nat → Bool} {c : Nat} {l : Str}
    (h : noRunPair p (c :: l) = true) : noRunPair p l = true := by
  cases l with
  | nil => rfl
  | cons d rest => simp only [noRunPair, Bool.and_eq_true] at h; exact h.2

theorem noRunPair_of_all_not {p : Nat → Bool} {l : Str}
    (h : ∀ c ∈ l, p c = false) : noRunPair p l = true := by
  induction l with
  | nil => rfl
  | cons c rest ih =>
    cases rest with
    | nil => rfl
    | cons d rest' =>
      simp only [noRunPair, Bool.and_eq_true]
      refine ⟨?_, ih (fun x hx => h x (List.mem_cons_of_mem c hx))⟩
      simp [h c (List.mem_cons_self c _)]

theorem noTrailP_of_all_not {p : Nat → Bool} {l : Str}
    (h : ∀ c ∈ l, p c = false) : noTrailP p l = true := by
  induction l with
  | nil => rfl
  | cons c rest ih =>
    cases rest with
    | nil => simp [noTrailP, h c (List.mem_cons_self c _)]
    | cons d rest' =>
      show noTrailP p (d :: rest') = true
      exact ih (fun x hx => h x (List.mem_cons_of_mem c hx))

theorem noLeadP_of_all_not {p : Nat → Bool} {l : Str}
    (h : ∀ c ∈ l, p c = false) : noLeadP p l = true := by
  cases l with
  | nil => rfl
  | cons c rest => simp [noLeadP, h c (List.mem_cons_self c _)]

theorem mem_collapseRunsBy {p : Nat → Bool} {sep : Nat} {c : Nat} :
    ∀ {b : Bool} {l : Str}, c ∈ collapseRunsBy p sep b l →
      c = sep ∨ (c ∈ l ∧ p c = false) := by
  intro b l
  induction l generalizing b with
  | nil => intro h; simp [collapseRunsBy] at h
  | cons d rest ih =>
    intro h
    by_cases hd : p d = true
    · cases b with
      | true =>
        simp only [collapseRunsBy, hd, if_true] at h
        rcases ih h with h1 | h2
        · exact Or.inl h1
        · exact Or.inr ⟨List.mem_cons_of_mem d h2.1, h2.2⟩
      | false =>
        simp only [collapseRunsBy, hd, if_true] at h
        rcases List.mem_cons.mp h with h1 | h1
        · exact Or.inl h1
        · rcases ih h1 with h2 | h3
          · exact Or.inl h2
          · exact Or.inr ⟨List.mem_cons_of_mem d h3.1, h3.2⟩
    · have hd' : p d = false := Bool.eq_false_iff.mpr hd
      cases b with
      | true =>
        simp only [collapseRunsBy, hd', Bool.false_eq_true, if_false] at h
        rcases List.mem_cons.mp h with h1 | h1
        · exact Or.inr ⟨h1 ▸ List.mem_cons_self d rest, h1 ▸ hd'⟩
        · rcases ih h1 with h2 | h3
          · exact Or.inl h2
          · exact Or.inr ⟨List.mem_cons_of_mem d h3.1, h3.2⟩
      | false =>
        simp only [collapseRunsBy, hd', Bool.false_eq_true, if_false] at h
        rcases List.mem_cons.mp h with h1 | h1
        · exact Or.inr ⟨h1 ▸ List.mem_cons_self d rest, h1 ▸ hd'⟩
        · rcases ih h1 with h2 | h3
          · exact Or.inl h2
          · exact Or.inr ⟨List.mem_cons_of_mem d h3.1, h3.2⟩

theorem collapseRunsBy_good {p : Nat → Bool} {sep : Nat} :
    ∀ l : Str,
      (∀ b, noRunPair p (collapseRunsBy p sep b l) = true) ∧
      (∀ d rest, collapseRunsBy p sep true l = d :: rest → p d = false) := by
  intro l
  induction l with
  | nil => exact ⟨fun b => rfl, fun d rest h => by simp [collapseRunsBy] at h⟩
  | cons c cs ih =>
    by_cases hc : p c = true
    · refine ⟨fun b => ?_, fun d rest h => ?_⟩
      · cases b with
        | true => simpa [collapseRunsBy, hc] using (ih.1 true)
        | false =>
          simp only [collapseRunsBy, hc, if_true]
          rcases hx : collapseRunsBy p sep true cs with _ | ⟨d, rest⟩
          · rfl
          · have hd : p d = false := ih.2 d rest hx
            have : noRunPair p (d :: rest) = true := by
              have := ih.1 true; rwa [hx] at this
            simp [noRunPair, hd, this]
      · simp only [collapseRunsBy, hc, if_true] at h
        exact ih.2 d rest h
    · have hc' : p c = false := Bool.eq_false_iff.mpr hc
      refine ⟨fun b => ?_, fun d rest h => ?_⟩
      · have hstep : collapseRunsBy p sep b (c :: cs) =
            c :: collapseRunsBy p sep false cs := by
          cases b <;> simp [collapseRunsBy, hc']
        rw [hstep]
        rcases hx : collapseRunsBy p sep false cs with _ | ⟨d, rest⟩
        · rfl
        · have hd : p d = false ∨ d = sep := by
            have hmem : d ∈ collapseRunsBy p sep false cs := by
              rw [hx]; exact List.mem_cons_self d rest
            rcases mem_collapseRunsBy hmem with h1 | h2
            · exact Or.inr h1
            · exact Or.inl h2.2
          have hnr : noRunPair p (d :: rest) = true := by
            have := ih.1 false; rwa [hx] at this
          simp only [noRunPair, Bool.and_eq_true]
          exact ⟨by simp [hc'], hnr⟩
      · simp only [collapseRunsBy, hc', Bool.false_eq_true, if_false,
          List.cons.injEq] at h
        rw [← h.1]; exact hc'

theorem collapseRunsBy_id {p : Nat → Bool} {sep : Nat} :
    ∀ l : Str, (∀ c ∈ l, p c = true → c = sep) → noRunPair p l = true →
      collapseRunsBy p sep false l = l := by
  intro l
  induction l with
  | nil => intro _ _; rfl
  | cons c cs ih =>
    intro hall hnr
    by_cases hc : p c = true
    · have hcsep : c = sep := hall c (List.mem_cons_self c cs) hc
      simp only [collapseRunsBy, hc, if_true]
      cases cs with
      | nil => simp [collapseRunsBy, hcsep]
      | cons d cs' =>
        have hd : p d = false := by
          simp only [noRunPair, Bool.and_eq_true, Bool.not_eq_true',
            Bool.and_eq_false_iff] at hnr
          rcases hnr.1 with h | h
          · exact absurd h (by simp [hc])
          · exact h
        have htail : collapseRunsBy p sep false (d :: cs') = d :: cs' :=
          ih (fun x hx => hall x (List.mem_cons_of_mem c hx)) (noRunPair_tail hnr)
        simp only [collapseRunsBy, hd, Bool.false_eq_true, if_false] at htail ⊢
        rw [hcsep, htail]
    · have hc' : p c = false := Bool.eq_false_iff.mpr hc
      simp only [collapseRunsBy, hc', Bool.false_eq_true, if_false]
      rw [ih (fun x hx => hall x (List.mem_cons_of_mem c hx)) (noRunPair_tail hnr)]

theorem collapseRunsBy_all_p {p : Nat → Bool} {sep : Nat} :
    ∀ l : Str, (∀ c ∈ l, p c = true) →
      collapseRunsBy p sep true l = [] ∧
      (l ≠ [] → collapseRunsBy p sep false l = [sep]) := by
  intro l
  induction l with
  | nil => exact fun _ => ⟨rfl, fun h => absurd rfl h⟩
  | cons c cs ih =>
    intro hall
    have hc : p c = true := hall c (List.mem_cons_self c cs)
    have htail := ih (fun x hx => hall x (List.mem_cons_of_mem c hx))
    refine ⟨?_, fun _ => ?_⟩
    · simp [collapseRunsBy, hc, htail.1]
    · simp [collapseRunsBy, hc, htail.1]

theorem dropTrailingBy_mem {p : Nat → Bool} {c : Nat} :
    ∀ {l : Str}, c ∈ dropTrailingBy p l → c ∈ l := by
  intro l
  induction l with
  | nil => intro h; simp [dropTrailingBy] at h
  | cons d rest ih =>
    intro h
    simp only [dropTrailingBy] at h
    by_cases hc : ((dropTrailingBy p rest).isEmpty && p d) = true
    · rw [if_pos hc] at h; simp at h
    · rw [if_neg hc] at h
      rcases List.mem_cons.mp h with h1 | h1
      · exact h1 ▸ List.mem_cons_self d rest
      · exact List.mem_cons_of_mem d (ih h1)

theorem dropTrailingBy_head {p : Nat → Bool} {d : Nat} {l r : Str} {c : Nat}
    (h : dropTrailingBy p (c :: l) = d :: r) : d = c := by
  simp only [dropTrailingBy] at h
  by_cases hc : ((dropTrailingBy p l).isEmpty && p c) = true
  · rw [if_pos hc] at h; exact absurd h (by simp)
  · rw [if_neg hc] at h
    exact (List.cons.injEq _ _ _ _ ▸ h).1.symm

theorem dropTrailingBy_noRunPair {p q : Nat → Bool} :
    ∀ {l : Str}, noRunPair q l = true → noRunPair q (dropTrailingBy p l) = true := by
  intro l
  induction l with
  | nil => intro _; rfl
  | cons c rest ih =>
    intro h
    simp only [dropTrailingBy]
    by_cases hc : ((dropTrailingBy p rest).isEmpty && p c) = true
    · rw [if_pos hc]; rfl
    · rw [if_neg hc]
      rcases hx : dropTrailingBy p rest with _ | ⟨d, r⟩
      · rfl
      · have hnr_tail : noRunPair q (d :: r) = true := by
          have := ih (noRunPair_tail h); rwa [hx] at this
        cases rest with
        | nil => simp [dropTrailingBy] at hx
        | cons e rest' =>
          have hde : d = e := dropTrailingBy_head hx
          simp only [noRunPair, Bool.and_eq_true] at h ⊢
          exact ⟨hde ▸ h.1, hnr_tail⟩

theorem dropTrailingBy_noTrail {p : Nat → Bool} :
    ∀ l : Str, noTrailP p (dropTrailingBy p l) = true := by
  intro l
  induction l with
  | nil => rfl
  | cons c rest ih =>
    simp only [dropTrailingBy]
    by_cases hc : ((dropTrailingBy p rest).isEmpty && p c) = true
    · rw [if_pos hc]; rfl
    · rw [if_neg hc]
      rcases hx : dropTrailingBy p rest with _ | ⟨d, r⟩
      · simp only [Bool.and_eq_true] at hc
        have : p c = false := by
          rcases Bool.eq_false_or_eq_true (p c) with h1 | h1
          · exact absurd ⟨by simp [hx], h1⟩ hc
          · exact h1
        simp [noTrailP, this]
      · show noTrailP p (c :: d :: r) = true
        have : noTrailP p (d :: r) = true := by rw [← hx]; exact ih
        simpa [noTrailP] using this

theorem dropTrailingBy_id {p : Nat → Bool} :
    ∀ {l : Str}, noTrailP p l = true → dropTrailingBy p l = l := by
  intro l
  induction l with
  | nil => intro _; rfl
  | cons c rest ih =>
    intro h
    simp only [dropTrailingBy]
    cases rest with
    | nil =>
      have hc : p c = false := by simpa [noTrailP] using h
      simp [dropTrailingBy, hc]
    | cons d rest' =>
      have htail : noTrailP p (d :: rest') = true := by simpa [noTrailP] using h
      have hrw : dropTrailingBy p (d :: rest') = d :: rest' := ih htail
      simp [hrw]

theorem dropWhile_mem {p : Nat → Bool} {c : Nat} :
    ∀ {l : Str}, c ∈ l.dropWhile p → c ∈ l := by
  intro l
  induction l with
  | nil => intro h; simp [List.dropWhile] at h
  | cons d rest ih =>
    intro h
    by_cases hd : p d = true
    · simp only [List.dropWhile, hd] at h
      exact List.mem_cons_of_mem d (ih h)
    · have hd' : p d = false := Bool.eq_false_iff.mpr hd
      simpa [List.dropWhile, hd'] using h

theorem dropWhile_noRunPair {p q : Nat → Bool} :
    ∀ {l : Str}, noRunPair q l = true → noRunPair q (l.dropWhile p) = true := by
  intro l
  induction l with
  | nil => intro _; rfl
  | cons d rest ih =>
    intro h
    by_cases hd : p d = true
    · simp only [List.dropWhile, hd]
      exact ih (noRunPair_tail h)
    · have hd' : p d = false := Bool.eq_false_iff.mpr hd
      simpa [List.dropWhile, hd'] using h

theorem dropWhile_noLead {p : Nat → Bool} :
    ∀ l : Str, noLeadP p (l.dropWhile p) = true := by
  intro l
  induction l with
  | nil => rfl
  | cons d rest ih =>
    by_cases hd : p d = true
    · simpa [List.dropWhile, hd] using ih
    · have hd' : p d = false := Bool.eq_false_iff.mpr hd
      simp [List.dropWhile, hd', noLeadP]

theorem dropWhile_id {p : Nat → Bool} {l : Str}
    (h : noLeadP p l = true) : l.dropWhile p = l := by
  cases l with
  | nil => rfl
  | cons c rest =>
    have hc : p c = false := by simpa [noLeadP] using h
    simp [List.dropWhile, hc]

theorem dropWhile_all_p {p : Nat → Bool} :
    ∀ {l : Str}, (∀ c ∈ l, p c = true) → l.dropWhile p = [] := by
  intro l
  induction l with
  | nil => intro _; rfl
  | cons c rest ih =>
    intro h
    simp only [List.dropWhile, h c (List.mem_cons_self c rest)]
    exact ih (fun x hx => h x (List.mem_cons_of_mem c hx))

theorem noLeadP_of_head {p : Nat → Bool} {l : Str}
    (h : ∀ c r, l = c :: r → p c = false) : noLeadP p l = true := by
  cases l with
  | nil => rfl
  | cons c rest => simp [noLeadP, h c rest rfl]

theorem map_id_on {f : Nat → Nat} :
    ∀ {l : Str}, (∀ c ∈ l, f c = c) → l.map f = l := by
  intro l
  induction l with
  | nil => intro _; rfl
  | cons c rest ih =>
    intro h
    simp only [List.map_cons, h c (List.mem_cons_self c rest)]
    rw [ih (fun x hx => h x (List.mem_cons_of_mem c hx))]

theorem lowerChar_fixed {c : Nat} (h : isAlnum c = true ∨ c = 45) :
    lowerChar c = c := by
  simp only [isAlnum, decide_eq_true_eq] at h
  simp only [lowerChar]
  rw [if_neg]
  omega

theorem lowerChar_fixed_space {c : Nat} (h : isSpace c = true) : lowerChar c = c := by
  simp only [isSpace, decide_eq_true_eq] at h
  simp only [lowerChar]
  rw [if_neg]
  omega

theorem lowerChar_idem (c : Nat) : lowerChar (lowerChar c) = lowerChar c := by
  by_cases h : 65 ≤ c ∧ c ≤ 90
  · have h1 : lowerChar c = c + 32 := by simp [lowerChar, h]
    rw [h1]
    simp only [lowerChar]
    rw [if_neg (by omega)]
  · have h1 : lowerChar c = c := by simp [lowerChar, h]
    rw [h1, h1]

theorem lowerStr_idem (s : Str) : lowerStr (lowerStr s) = lowerStr s := by
  induction s with
  | nil => rfl
  | cons c rest ih =>
    show lowerChar (lowerChar c) :: lowerStr (lowerStr rest) = lowerChar c :: lowerStr rest
    rw [lowerChar_idem, ih]

theorem mem_lowerStr_not_upper {c : Nat} {s : Str} (h : c ∈ lowerStr s) :
    ¬(65 ≤ c ∧ c ≤ 90) := by
  rcases List.mem_map.mp h with ⟨d, _, rfl⟩
  simp only [lowerChar]
  split <;> omega

theorem isAlnum_not_space {c : Nat} (h : isAlnum c = true) : isSpace c = false := by
  simp only [isAlnum, decide_eq_true_eq] at h
  simp only [isSpace, decide_eq_false_iff_not]
  omega

theorem isWordChar_not_space {c : Nat} (h : isWordChar c = true) : isSpace c = false := by
  simp only [isWordChar, decide_eq_true_eq] at h
  simp only [isSpace, decide_eq_false_iff_not]
  omega

theorem isSpace_not_alnum {c : Nat} (h : isSpace c = true) : isAlnum c = false := by
  simp only [isSpace, decide_eq_true_eq] at h
  simp only [isAlnum, decide_eq_false_iff_not]
  omega

/-- Code points of the normalized form: alphanumeric or a hyphen. -/
theorem mem_normalizeSpec {c : Nat} {s : Str} (h : c ∈ normalizeSpec s) :
    isAlnum c = true ∨ c = 45 := by
  have h1 : c ∈ dashRuns (lowerStr s) :=
    dropWhile_mem (dropTrailingBy_mem h)
  rcases mem_collapseRunsBy h1 with h2 | h2
  · exact Or.inr h2
  · exact Or.inl (by simpa using h2.2)

theorem normalizeSpec_noRunPair (s : Str) :
    noRunPair (fun c => !isAlnum c) (normalizeSpec s) = true :=
  dropTrailingBy_noRunPair (dropWhile_noRunPair ((collapseRunsBy_good _).1 false))

theorem normalizeSpec_noTrail (s : Str) :
    noTrailP (fun c => c == 45) (normalizeSpec s) = true :=
  dropTrailingBy_noTrail _

theorem normalizeSpec_noLead (s : Str) :
    noLeadP (fun c => c == 45) (normalizeSpec s) = true := by
  apply noLeadP_of_head
  intro d r hdr
  rcases hy : (dashRuns (lowerStr s)).dropWhile (fun c => c == 45) with _ | ⟨c, y⟩
  · rw [normalizeSpec, stripDashes, hy] at hdr
    simp [dropTrailingBy] at hdr
  · rw [normalizeSpec, stripDashes, hy] at hdr
    have hdc : d = c := dropTrailingBy_head hdr
    have : noLeadP (fun c => c == 45) (c :: y) = true := by
      rw [← hy]; exact dropWhile_noLead _
    simpa [noLeadP, hdc] using this

theorem mem_normalizeSpec_not_space {c : Nat} {s : Str} (h : c ∈ normalizeSpec s) :
    isSpace c = false := by
  rcases mem_normalizeSpec h with h1 | h1
  · exact isAlnum_not_space h1
  · subst h1; rfl

/-- Function `makeUrlFriendly` computes exactly the spec §4.1 normalization (the
final `trim()` is a no-op because no whitespace survives the hyphen
replacement). -/
theorem makeUrlFriendly_eq_normalizeSpec (s : Str) :
    makeUrlFriendly s = normalizeSpec s := by
  by_cases hs : s.isEmpty = true
  · have : s = [] := List.isEmpty_iff.mp hs
    subst this; rfl
  · rw [makeUrlFriendly, if_neg hs]
    show jsTrim (normalizeSpec s) = normalizeSpec s
    rw [jsTrim,
      dropWhile_id (noLeadP_of_all_not (fun c hc => mem_normalizeSpec_not_space hc)),
      dropTrailingBy_id (noTrailP_of_all_not (fun c hc => mem_normalizeSpec_not_space hc))]

/-- The normalized form is a fixed point of `makeUrlFriendly`. -/
theorem makeUrlFriendly_fixed (s : Str) :
    makeUrlFriendly (normalizeSpec s) = normalizeSpec s := by
  by_cases ht : (normalizeSpec s).isEmpty = true
  · rw [List.isEmpty_iff.mp ht]; rfl
  · rw [makeUrlFriendly, if_neg ht]
    have hchars : ∀ c ∈ normalizeSpec s, isAlnum c = true ∨ c = 45 :=
      fun c hc => mem_normalizeSpec hc
    have h1 : lowerStr (normalizeSpec s) = normalizeSpec s :=
      map_id_on (fun c hc => lowerChar_fixed (hchars c hc))
    have h2 : dashRuns (normalizeSpec s) = normalizeSpec s := by
      apply collapseRunsBy_id
      · intro c hc hp
        rcases hchars c hc with h | h
        · simp [h] at hp
        · exact h
      · exact normalizeSpec_noRunPair s
    have h3 : stripDashes (normalizeSpec s) = normalizeSpec s := by
      rw [stripDashes, dropWhile_id (normalizeSpec_noLead s),
        dropTrailingBy_id (normalizeSpec_noTrail s)]
    have h4 : jsTrim (normalizeSpec s) = normalizeSpec s := by
      rw [jsTrim,
        dropWhile_id (noLeadP_of_all_not (fun c hc => mem_normalizeSpec_not_space hc)),
        dropTrailingBy_id (noTrailP_of_all_not (fun c hc => mem_normalizeSpec_not_space hc))]
    rw [h1, h2, h3, h4]

theorem makeUrlFriendly_idem (s : Str) :
    makeUrlFriendly (makeUrlFriendly s) = makeUrlFriendly s := by
  rw [makeUrlFriendly_eq_normalizeSpec s, makeUrlFriendly_fixed s]

theorem makeUrlFriendly_lowerStr (s : Str) :
    makeUrlFriendly (lowerStr s) = makeUrlFriendly s := by
  by_cases hs : s.isEmpty = true
  · rw [List.isEmpty_iff.mp hs]; rfl
  · have hls : (lowerStr s).isEmpty = false := by
      cases s with
      | nil => simp at hs
      | cons c r => rfl
    rw [makeUrlFriendly, if_neg (by simp [hls]), makeUrlFriendly, if_neg hs,
      lowerStr_idem]

theorem makeUrlFriendly_all_space {s : Str} (h : ∀ c ∈ s, isSpace c = true) :
    makeUrlFriendly s = [] := by
  cases s with
  | nil => rfl
  | cons c rest =>
    rw [makeUrlFriendly, if_neg (by simp)]
    have h1 : lowerStr (c :: rest) = c :: rest :=
      map_id_on (fun x hx => lowerChar_fixed_space (h x hx))
    have h2 : dashRuns (c :: rest) = [45] := by
      apply ((collapseRunsBy_all_p (c :: rest)
        (fun x hx => by simp [isSpace_not_alnum (h x hx)])).2)
      simp
    rw [h1]
    show jsTrim (stripDashes (dashRuns (c :: rest))) = []
    rw [h2]
    rfl

/-- The inner pipeline of `createSlug` (everything after the emptiness
test), split out so facts about its output can be stated uniformly. -/
def slugPipeline (s : Str) : Str :=
  stripDashes (collapseRunsBy (fun c => c == 45) 45 false
    (collapseRunsBy isSpace 45 false
      (List.filter (fun c => isWordChar c || isSpace c || c == 45)
        (jsTrim (lowerStr s)))))

theorem createSlug_eq_pipeline {s : Str} (h : s.isEmpty = false) :
    createSlug s = slugPipeline s := by
  rw [createSlug, if_neg (by simp [h])]; rfl

theorem mem_slugPipeline {c : Nat} {s : Str} (h : c ∈ slugPipeline s) :
    (isWordChar c = true ∧ isSpace c = false ∧ ¬(65 ≤ c ∧ c ≤ 90)) ∨ c = 45 := by
  have h1 : c ∈ collapseRunsBy (fun c => c == 45) 45 false
      (collapseRunsBy isSpace 45 false
        (List.filter (fun c => isWordChar c || isSpace c || c == 45)
          (jsTrim (lowerStr s)))) :=
    dropWhile_mem (dropTrailingBy_mem h)
  rcases mem_collapseRunsBy h1 with h2 | h2
  · exact Or.inr h2
  · have hne45 : (c == 45) = false := h2.2
    rcases mem_collapseRunsBy h2.1 with h3 | h3
    · subst h3; simp at hne45
    · have hns : isSpace c = false := h3.2
      have h4 := List.mem_filter.mp h3.1
      have hkeep : (isWordChar c || isSpace c || c == 45) = true := h4.2
      have hword : isWordChar c = true := by
        simpa [hns, hne45] using hkeep
      have hmem : c ∈ lowerStr s :=
        dropWhile_mem (dropTrailingBy_mem h4.1)
      exact Or.inl ⟨hword, hns, mem_lowerStr_not_upper hmem⟩

theorem slugPipeline_noRunPair (s : Str) :
    noRunPair (fun c => c == 45) (slugPipeline s) = true :=
  dropTrailingBy_noRunPair (dropWhile_noRunPair ((collapseRunsBy_good _).1 false))

theorem slugPipeline_noTrail (s : Str) :
    noTrailP (fun c => c == 45) (slugPipeline s) = true :=
  dropTrailingBy_noTrail _

theorem slugPipeline_noLead (s : Str) :
    noLeadP (fun c => c == 45) (slugPipeline s) = true := by
  apply noLeadP_of_head
  intro d r hdr
  rcases hy : (collapseRunsBy (fun c => c == 45) 45 false
      (collapseRunsBy isSpace 45 false
        (List.filter (fun c => isWordChar c || isSpace c || c == 45)
          (jsTrim (lowerStr s))))).dropWhile (fun c => c == 45) with _ | ⟨c, y⟩
  · rw [slugPipeline, stripDashes, hy] at hdr
    simp [dropTrailingBy] at hdr
  · rw [slugPipeline, stripDashes, hy] at hdr
    have hdc : d = c := dropTrailingBy_head hdr
    have : noLeadP (fun c => c == 45) (c :: y) = true := by
      rw [← hy]; exact dropWhile_noLead _
    simpa [noLeadP, hdc] using this

theorem mem_slugPipeline_not_space {c : Nat} {s : Str} (h : c ∈ slugPipeline s) :
    isSpace c = false := by
  rcases mem_slugPipeline h with h1 | h1
  · exact h1.2.1
  · subst h1; rfl

theorem createSlug_idem (s : Str) : createSlug (createSlug s) = createSlug s := by
  by_cases hs : s.isEmpty = true
  · rw [List.isEmpty_iff.mp hs]; rfl
  · have hs' : s.isEmpty = false := Bool.eq_false_iff.mpr hs
    rw [createSlug_eq_pipeline hs']
    by_cases ht : (slugPipeline s).isEmpty = true
    · rw [List.isEmpty_iff.mp ht]; rfl
    · have ht' : (slugPipeline s).isEmpty = false := Bool.eq_false_iff.mpr ht
      rw [createSlug_eq_pipeline ht']
      have hchars := fun c hc => mem_slugPipeline (s := s) (c := c) hc
      have hnospace : ∀ c ∈ slugPipeline s, isSpace c = false :=
        fun c hc => mem_slugPipeline_not_space hc
      have h1 : lowerStr (slugPipeline s) = slugPipeline s := by
        apply map_id_on
        intro c hc
        rcases hchars c hc with h | h
        · simp only [lowerChar]; rw [if_neg h.2.2]
        · subst h; rfl
      have h2 : jsTrim (slugPipeline s) = slugPipeline s := by
        rw [jsTrim, dropWhile_id (noLeadP_of_all_not hnospace),
          dropTrailingBy_id (noTrailP_of_all_not hnospace)]
      have h3 : List.filter (fun c => isWordChar c || isSpace c || c == 45)
          (slugPipeline s) = slugPipeline s := by
        apply List.filter_eq_self.mpr
        intro c hc
        rcases hchars c hc with h | h
        · simp [h.1]
        · simp [h]
      have h4 : collapseRunsBy isSpace 45 false (slugPipeline s) = slugPipeline s := by
        apply collapseRunsBy_id
        · intro c hc hp
          exact absurd hp (by simp [hnospace c hc])
        · exact noRunPair_of_all_not hnospace
      have h5 : collapseRunsBy (fun c => c == 45) 45 false (slugPipeline s) =
          slugPipeline s := by
        apply collapseRunsBy_id
        · intro c hc hp
          simpa using hp
        · exact slugPipeline_noRunPair s
      have h6 : stripDashes (slugPipeline s) = slugPipeline s := by
        rw [stripDashes, dropWhile_id (slugPipeline_noLead s),
          dropTrailingBy_id (slugPipeline_noTrail s)]
      show stripDashes (collapseRunsBy (fun c => c == 45) 45 false
        (collapseRunsBy isSpace 45 false
          (List.filter (fun c => isWordChar c || isSpace c || c == 45)
            (jsTrim (lowerStr (slugPipeline s)))))) = slugPipeline s
      rw [h1, h2, h3, h4, h5, h6]

theorem createSlug_all_space {s : Str} (h : ∀ c ∈ s, isSpace c = true) :
    createSlug s = [] := by
  cases s with
  | nil => rfl
  | cons c rest =>
    rw [createSlug_eq_pipeline (by rfl)]
    have h1 : lowerStr (c :: rest) = c :: rest :=
      map_id_on (fun x hx => lowerChar_fixed_space (h x hx))
    have h2 : jsTrim (c :: rest) = [] := by
      rw [jsTrim, dropWhile_all_p h]; rfl
    rw [slugPipeline, h1, h2]
    rfl

/-! ## Redirector lemmas -/

theorem isPrefixOf_append_self (n t : Str) : n.isPrefixOf (n ++ t) = true := by
  induction n with
  | nil => simp [List.isPrefixOf]
  | cons c n' ih => simp [List.isPrefixOf, ih]

theorem applyMappings_no_match {url : Str} :
    ∀ {rules : List RedirectRule}, (∀ m ∈ rules, containsSub m.fromUrl url = false) →
      applyMappings rules url = url := by
  intro rules
  induction rules with
  | nil => intro _; rfl
  | cons r rest ih =>
    intro h
    simp only [applyMappings]
    rw [if_neg (by simp [h r (List.mem_cons_self r rest)])]
    exact ih (fun m hm => h m (List.mem_cons_of_mem r hm))

theorem applyMappings_first {url : Str} :
    ∀ (rules : List RedirectRule) (i : Nat) (hi : i < rules.length),
      containsSub (rules.get ⟨i, hi⟩).fromUrl url = true →
      (∀ m ∈ rules.take i, containsSub m.fromUrl url = false) →
      applyMappings rules url =
        replaceFirst (rules.get ⟨i, hi⟩).fromUrl (rules.get ⟨i, hi⟩).toUrl url := by
  intro rules
  induction rules with
  | nil => intro i hi; simp at hi
  | cons r rest ih =>
    intro i hi hc hprev
    cases i with
    | zero =>
      have hr : (r :: rest).get ⟨0, hi⟩ = r := rfl
      rw [hr] at hc ⊢
      simp only [applyMappings]
      rw [if_pos hc]
    | succ n =>
      have h0 : containsSub r.fromUrl url = false :=
        hprev r (by simp [List.take_succ_cons])
      have hi' : n < rest.length := Nat.lt_of_succ_lt_succ hi
      have hget : (r :: rest).get ⟨n + 1, hi⟩ = rest.get ⟨n, hi'⟩ := rfl
      rw [hget] at hc ⊢
      simp only [applyMappings]
      rw [if_neg (by simp [h0])]
      exact ih n hi' hc (fun m hm =>
        hprev m (by
          rw [List.take_succ_cons]
          exact List.mem_cons_of_mem r hm))

theorem replaceFirst_leftmost {n r : Str} :
    ∀ (pre suf : Str),
      (∀ pre' suf', pre ++ n ++ suf = pre' ++ n ++ suf' → pre.length ≤ pre'.length) →
      replaceFirst n r (pre ++ n ++ suf) = pre ++ r ++ suf := by
  intro pre
  induction pre with
  | nil =>
    intro suf _
    show replaceFirst n r (n ++ suf) = r ++ suf
    rw [replaceFirst.eq_def, if_pos (isPrefixOf_append_self n suf), List.drop_left]
  | cons c pre' ih =>
    intro suf hmin
    have hnp : n.isPrefixOf (c :: (pre' ++ n ++ suf)) = false := by
      rcases Bool.eq_false_or_eq_true (n.isPrefixOf (c :: (pre' ++ n ++ suf)))
        with h | h
      · exfalso
        rcases List.isPrefixOf_iff_prefix.mp h with ⟨t, ht⟩
        have h0 := hmin [] t (by simpa using ht.symm)
        simp at h0
      · exact h
    have hnp' : ¬(n.isPrefixOf (c :: (pre' ++ n ++ suf)) = true) := by
      rw [hnp]; exact Bool.false_ne_true
    have hcons : (c :: pre') ++ n ++ suf = c :: (pre' ++ n ++ suf) := by simp
    rw [hcons, replaceFirst.eq_def, if_neg hnp']
    have hrec := ih suf (fun pre'' suf'' heq => by
      have h2 := hmin (c :: pre'') suf'' (by simp [heq])
      simpa using h2)
    show c :: replaceFirst n r (pre' ++ n ++ suf) = c :: pre' ++ r ++ suf
    rw [hrec]
    simp

theorem containsSub_of_isPrefixOf {n hay : Str} (h : n.isPrefixOf hay = true) :
    containsSub n hay = true := by
  rw [containsSub.eq_def, h, Bool.true_or]

theorem containsSub_cons {n : Str} {c : Nat} {rest : Str}
    (h : containsSub n rest = true) : containsSub n (c :: rest) = true := by
  rw [containsSub.eq_def]
  simp only [h]
  simp

theorem containsSub_append (n pre suf : Str) :
    containsSub n (pre ++ (n ++ suf)) = true := by
  induction pre with
  | nil => exact containsSub_of_isPrefixOf (isPrefixOf_append_self n suf)
  | cons c pre' ih => exact containsSub_cons ih

/-! ## Table and resolver lemmas -/

theorem lookupAssoc_mem_nodup {k : Str} {g : Game} :
    ∀ {t : Table}, (t.map Prod.fst).Nodup → (k, g) ∈ t → lookupAssoc t k = some g := by
  intro t
  induction t with
  | nil => intro _ hmem; simp at hmem
  | cons kg rest ih =>
    intro hnd hmem
    obtain ⟨k', g'⟩ := kg
    rw [List.map_cons] at hnd
    have hnd' := List.nodup_cons.mp hnd
    rcases List.mem_cons.mp hmem with h1 | h1
    · obtain ⟨hk, hg⟩ := Prod.mk.injEq .. ▸ h1
      simp only [lookupAssoc]
      rw [if_pos hk.symm, hg]
    · simp only [lookupAssoc]
      by_cases hk : k' = k
      · exfalso
        apply hnd'.1
        rw [hk]
        exact List.mem_map.mpr ⟨(k, g), h1, rfl⟩
      · rw [if_neg hk]
        exact ih hnd'.2 h1

theorem lookupAssoc_some_mem {k : Str} {g : Game} :
    ∀ {t : Table}, lookupAssoc t k = some g → (k, g) ∈ t := by
  intro t
  induction t with
  | nil => intro h; simp [lookupAssoc] at h
  | cons kg rest ih =>
    intro h
    obtain ⟨k', g'⟩ := kg
    simp only [lookupAssoc] at h
    by_cases hk : k' = k
    · rw [if_pos hk] at h
      subst hk
      rw [Option.some.injEq] at h
      exact h ▸ List.mem_cons_self _ _
    · rw [if_neg hk] at h
      exact List.mem_cons_of_mem _ (ih h)

theorem lookupAssoc_insert_self {k : Str} {v : Game} :
    ∀ (t : Table), lookupAssoc (insertAssoc t k v) k = some v := by
  intro t
  induction t with
  | nil => simp [insertAssoc, lookupAssoc]
  | cons kg rest ih =>
    obtain ⟨k', g'⟩ := kg
    simp only [insertAssoc]
    by_cases h1 : k' = k
    · rw [if_pos h1]
      simp only [lookupAssoc]
      rw [if_pos h1]
    · rw [if_neg h1]
      simp only [lookupAssoc]
      rw [if_neg h1]
      exact ih

theorem lookupAssoc_insert_ne {k key : Str} {v : Game} (hne : key ≠ k) :
    ∀ (t : Table), lookupAssoc (insertAssoc t k v) key = lookupAssoc t key := by
  intro t
  induction t with
  | nil =>
    simp only [insertAssoc, lookupAssoc]
    rw [if_neg (fun hh => hne hh.symm)]
  | cons kg rest ih =>
    obtain ⟨k', g'⟩ := kg
    simp only [insertAssoc]
    by_cases h1 : k' = k
    · rw [if_pos h1]
      simp only [lookupAssoc]
      have hcond : ¬(k' = key) := fun hh => hne (hh ▸ h1)
      rw [if_neg hcond, if_neg hcond]
    · rw [if_neg h1]
      simp only [lookupAssoc]
      by_cases h2 : k' = key
      · rw [if_pos h2, if_pos h2]
      · rw [if_neg h2, if_neg h2, ih]

theorem mem_insertAssoc {kg : Str × Game} {k : Str} {v : Game} :
    ∀ {t : Table}, kg ∈ insertAssoc t k v → kg = (k, v) ∨ kg ∈ t := by
  intro t
  induction t with
  | nil => intro h; simpa [insertAssoc] using h
  | cons kg' rest ih =>
    intro h
    obtain ⟨k', g'⟩ := kg'
    simp only [insertAssoc] at h
    by_cases h1 : k' = k
    · rw [if_pos h1] at h
      rcases List.mem_cons.mp h with h2 | h2
      · subst h1; exact Or.inl h2
      · exact Or.inr (List.mem_cons_of_mem _ h2)
    · rw [if_neg h1] at h
      rcases List.mem_cons.mp h with h2 | h2
      · exact Or.inr (h2 ▸ List.mem_cons_self _ _)
      · rcases ih h2 with h3 | h3
        · exact Or.inl h3
        · exact Or.inr (List.mem_cons_of_mem _ h3)

theorem mem_keys_insertAssoc {x k : Str} {v : Game} :
    ∀ {t : Table}, x ∈ (insertAssoc t k v).map Prod.fst ↔
      x ∈ t.map Prod.fst ∨ x = k := by
  intro t
  induction t with
  | nil => simp [insertAssoc]
  | cons kg rest ih =>
    obtain ⟨k', g'⟩ := kg
    simp only [insertAssoc]
    by_cases h1 : k' = k
    · subst h1
      simp only [List.map_cons]
      constructor
      · intro h
        rcases List.mem_cons.mp h with h2 | h2
        · exact Or.inr h2
        · exact Or.inl (List.mem_cons_of_mem _ h2)
      · intro h
        rcases h with h2 | h2
        · rcases List.mem_cons.mp h2 with h3 | h3
          · exact h3 ▸ List.mem_cons_self _ _
          · exact List.mem_cons_of_mem _ h3
        · exact h2 ▸ List.mem_cons_self _ _
    · rw [if_neg h1]
      simp only [List.map_cons, List.mem_cons, ih]
      tauto

theorem nodup_keys_insertAssoc {k : Str} {v : Game} :
    ∀ {t : Table}, (t.map Prod.fst).Nodup → ((insertAssoc t k v).map Prod.fst).Nodup := by
  intro t
  induction t with
  | nil => intro _; simp [insertAssoc]
  | cons kg rest ih =>
    intro hnd
    obtain ⟨k', g'⟩ := kg
    rw [List.map_cons] at hnd
    have hnd' := List.nodup_cons.mp hnd
    simp only [insertAssoc]
    by_cases h1 : k' = k
    · rw [if_pos h1, List.map_cons]
      exact List.nodup_cons.mpr hnd'
    · rw [if_neg h1, List.map_cons]
      apply List.nodup_cons.mpr
      refine ⟨?_, ih hnd'.2⟩
      intro hmem
      rcases mem_keys_insertAssoc.mp hmem with h2 | h2
      · exact hnd'.1 h2
      · exact h1 h2

theorem wfTable_nil : wfTable [] := ⟨List.nodup_nil, by simp⟩

theorem wfTable_insert {t : Table} {k : Str} {v : Game}
    (hwf : wfTable t) (hid : v.id ≠ []) (hk : k = lowerStr v.id) :
    wfTable (insertAssoc t k v) := by
  refine ⟨nodup_keys_insertAssoc hwf.1, ?_⟩
  intro kg hmem
  rcases mem_insertAssoc hmem with h1 | h1
  · subst h1; exact ⟨hid, hk⟩
  · exact hwf.2 kg h1

theorem wfTable_foldl_insertGame {gs : List Game} :
    ∀ {t0 : Table}, wfTable t0 → wfTable (gs.foldl insertGame t0) := by
  induction gs with
  | nil => intro t0 h; exact h
  | cons g rest ih =>
    intro t0 h
    simp only [List.foldl_cons]
    apply ih
    by_cases hid : g.id.isEmpty = true
    · simpa [insertGame, hid] using h
    · have : insertGame t0 g = insertAssoc t0 (lowerStr g.id) g := by
        simp [insertGame, hid]
      rw [this]
      exact wfTable_insert h (fun hh => hid (by simp [hh])) rfl

theorem wfTable_foldl_pairs {ps : List (Str × Game)} :
    ∀ {t0 : Table}, (∀ kv ∈ ps, kv.2.id ≠ [] ∧ kv.1 = lowerStr kv.2.id) →
      wfTable t0 →
      wfTable (ps.foldl (fun t kg => insertAssoc t kg.1 kg.2) t0) := by
  induction ps with
  | nil => intro t0 _ h; exact h
  | cons p rest ih =>
    intro t0 hall h
    simp only [List.foldl_cons]
    apply ih (fun kv hkv => hall kv (List.mem_cons_of_mem p hkv))
    have hp := hall p (List.mem_cons_self p rest)
    exact wfTable_insert h hp.1 hp.2

theorem wfSource_processGames {d : JsonData} (hd : wfSource d = true) :
    wfTable (processGames d) := by
  cases d with
  | jarrTop gs => exact wfTable_foldl_insertGame wfTable_nil
  | jobj es =>
    simp only [processGames]
    apply wfTable_foldl_insertGame
    by_cases hn : hasTruthyNitrome es = true
    · rw [if_pos hn]; exact wfTable_nil
    · rw [if_neg hn]
      have hok : ∀ kv ∈ es, case1Ok kv.1 kv.2 = true := by
        simp only [wfSource, Bool.or_eq_true] at hd
        rcases hd with h | h
        · exact absurd h hn
        · exact List.all_eq_true.mp h
      apply wfTable_foldl_pairs ?_ wfTable_nil
      intro kv hkv
      rcases List.mem_filterMap.mp hkv with ⟨⟨k0, v0⟩, hmem, hstore⟩
      have hok0 := hok _ hmem
      cases v0 with
      | jgame g0 =>
        by_cases hg : g0.id.isEmpty = true
        · simp only [case1Ok, hg, if_true] at hok0
          simp only [case1Store, hg, if_true, Option.some.injEq] at hstore
          subst hstore
          refine ⟨fun hh => ?_, rfl⟩
          have hk0 : k0 = [] := hh
          rw [hk0] at hok0
          simp at hok0
        · have hg' : g0.id.isEmpty = false := Bool.eq_false_iff.mpr hg
          simp only [case1Ok, hg', Bool.false_eq_true, if_false] at hok0
          simp only [case1Store, hg', Bool.false_eq_true, if_false,
            Option.some.injEq] at hstore
          subst hstore
          refine ⟨fun hh => ?_, by simpa using hok0⟩
          have h0 : g0.id = [] := hh
          rw [h0] at hg'
          simp at hg'
      | jarr gs0 =>
        simp only [case1Ok] at hok0
        simp only [case1Store, Option.some.injEq] at hstore
        subst hstore
        refine ⟨fun hh => ?_, rfl⟩
        have hk0 : k0 = [] := hh
        rw [hk0] at hok0
        simp at hok0
      | jother t0 =>
        simp [case1Store] at hstore

theorem isEmpty_false_of_ne_nil {l : Str} (h : l ≠ []) : l.isEmpty = false := by
  cases l with
  | nil => exact absurd rfl h
  | cons c r => rfl

theorem lowerStr_ne_nil {l : Str} (h : l ≠ []) : lowerStr l ≠ [] := by
  cases l with
  | nil => exact absurd rfl h
  | cons c r => simp [lowerStr]

theorem findLoop_some {sn : Str} {g : Game} :
    ∀ {t : Table}, findLoop t sn = some g →
      ∃ kg ∈ t, kg.2 = g ∧
        ((¬kg.2.id.isEmpty ∧ lowerStr kg.2.id = sn) ∨
         (¬kg.2.name.isEmpty ∧ makeUrlFriendly kg.2.name = sn)) := by
  intro t
  induction t with
  | nil => intro h; simp [findLoop] at h
  | cons kg rest ih =>
    intro h
    obtain ⟨k', g'⟩ := kg
    simp only [findLoop] at h
    by_cases h1 : ¬g'.id.isEmpty = true ∧ lowerStr g'.id = sn
    · rw [if_pos h1, Option.some.injEq] at h
      exact ⟨(k', g'), List.mem_cons_self _ _, h, Or.inl h1⟩
    · rw [if_neg h1] at h
      by_cases h2 : ¬g'.name.isEmpty = true ∧ makeUrlFriendly g'.name = sn
      · rw [if_pos h2, Option.some.injEq] at h
        exact ⟨(k', g'), List.mem_cons_self _ _, h, Or.inr h2⟩
      · rw [if_neg h2] at h
        rcases ih h with ⟨kg0, hmem, hrest⟩
        exact ⟨kg0, List.mem_cons_of_mem _ hmem, hrest⟩

theorem findLoop_eq_nameScan {sn : Str} :
    ∀ {t : Table}, (∀ kg ∈ t, lowerStr kg.2.id ≠ sn) →
      findLoop t sn = nameScan t sn := by
  intro t
  induction t with
  | nil => intro _; rfl
  | cons kg rest ih =>
    intro hno
    obtain ⟨k', g'⟩ := kg
    have hid : ¬(¬g'.id.isEmpty = true ∧ lowerStr g'.id = sn) :=
      fun hh => hno (k', g') (List.mem_cons_self _ _) hh.2
    simp only [findLoop, nameScan]
    rw [if_neg hid]
    by_cases h2 : ¬g'.name.isEmpty = true ∧ makeUrlFriendly g'.name = sn
    · rw [if_pos h2, if_pos h2]
    · rw [if_neg h2, if_neg h2]
      exact ih (fun kg0 hm => hno kg0 (List.mem_cons_of_mem _ hm))

theorem nameScan_none {sn : Str} :
    ∀ {t : Table}, (∀ kg ∈ t, ¬(¬kg.2.name.isEmpty = true ∧ makeUrlFriendly kg.2.name = sn)) →
      nameScan t sn = none := by
  intro t
  induction t with
  | nil => intro _; rfl
  | cons kg rest ih =>
    intro hno
    obtain ⟨k', g'⟩ := kg
    simp only [nameScan]
    rw [if_neg (hno (k', g') (List.mem_cons_self _ _))]
    exact ih (fun kg0 hm => hno kg0 (List.mem_cons_of_mem _ hm))

/-- Any successful resolution observed the direct key hit, the loop's id
test, or the loop's name test. -/
theorem findGame_some_cases {tbl : Table} {key : Str} {g : Game}
    (h : findGameByUrlName tbl key = some g) :
    (lowerStr key, g) ∈ tbl ∨
      ∃ kg ∈ tbl, kg.2 = g ∧
        ((¬kg.2.id.isEmpty ∧ lowerStr kg.2.id = lowerStr key) ∨
         (¬kg.2.name.isEmpty ∧ makeUrlFriendly kg.2.name = lowerStr key)) := by
  by_cases hk : key.isEmpty = true
  · rw [findGameByUrlName, if_pos hk] at h
    exact absurd h (by simp)
  · rw [findGameByUrlName, if_neg hk] at h
    have h' : (match lookupAssoc tbl (lowerStr key) with
        | some g => some g
        | none => findLoop tbl (lowerStr key)) = some g := h
    rcases hx : lookupAssoc tbl (lowerStr key) with _ | g'
    · rw [hx] at h'
      exact Or.inr (findLoop_some h')
    · rw [hx, Option.some.injEq] at h'
      exact Or.inl (lookupAssoc_some_mem (h' ▸ hx))

/-- A case-insensitive id match resolves through the direct key hit,
regardless of entry order or competing name matches. -/
theorem resolver_id_hit {tbl : Table} {k : Str} {g : Game} {raw : Str}
    (hwf : wfTable tbl) (hmem : (k, g) ∈ tbl)
    (hid : lowerStr g.id = lowerStr raw) (hraw : raw ≠ []) :
    findGameByUrlName tbl raw = some g := by
  have hk : k = lowerStr raw := (hwf.2 (k, g) hmem).2.trans hid
  have hlk : lookupAssoc tbl (lowerStr raw) = some g :=
    lookupAssoc_mem_nodup hwf.1 (hk ▸ hmem)
  rw [findGameByUrlName, if_neg (by simp [isEmpty_false_of_ne_nil hraw])]
  show (match lookupAssoc tbl (lowerStr raw) with
    | some g => some g
    | none => findLoop tbl (lowerStr raw)) = some g
  rw [hlk]

/-- With no id match anywhere, resolution is exactly the ordered
display-name scan. -/
theorem resolver_no_id {tbl : Table} {raw : Str}
    (hwf : wfTable tbl)
    (hno : ∀ kg ∈ tbl, lowerStr kg.2.id ≠ lowerStr raw) (hraw : raw ≠ []) :
    findGameByUrlName tbl raw = nameScan tbl (lowerStr raw) := by
  have hlk : lookupAssoc tbl (lowerStr raw) = none := by
    rcases hx : lookupAssoc tbl (lowerStr raw) with _ | g'
    · rfl
    · exfalso
      have hmem := lookupAssoc_some_mem hx
      exact hno _ hmem ((hwf.2 _ hmem).2.symm)
  rw [findGameByUrlName, if_neg (by simp [isEmpty_false_of_ne_nil hraw])]
  show (match lookupAssoc tbl (lowerStr raw) with
    | some g => some g
    | none => findLoop tbl (lowerStr raw)) = nameScan tbl (lowerStr raw)
  rw [hlk]
  exact findLoop_eq_nameScan hno

/-! ## Last-write-wins lemmas for the built table -/

theorem some_or_eq {α : Type} (a : α) (b : Option α) : (some a).or b = some a := rfl

theorem lookup_foldl_insertGame {k : Str} :
    ∀ (gs : List Game) (t0 : Table),
      lookupAssoc (gs.foldl insertGame t0) k =
        ((gs.filter (fun g => !g.id.isEmpty && lowerStr g.id == k)).getLast?).or
          (lookupAssoc t0 k) := by
  intro gs
  induction gs with
  | nil => intro t0; rfl
  | cons g rest ih =>
    intro t0
    simp only [List.foldl_cons]
    rw [ih (insertGame t0 g), List.filter_cons]
    by_cases hf : (!g.id.isEmpty && lowerStr g.id == k) = true
    · rw [if_pos hf]
      rcases hlast : (rest.filter (fun g => !g.id.isEmpty && lowerStr g.id == k)).getLast?
        with _ | gl
      · have hfe : rest.filter (fun g => !g.id.isEmpty && lowerStr g.id == k) = [] :=
          List.getLast?_eq_none_iff.mp hlast
        rw [hlast, Option.none_or, hfe, List.getLast?_singleton, some_or_eq]
        have hid : g.id.isEmpty = false := by
          rcases Bool.and_eq_true_iff.mp hf with ⟨h1, _⟩
          simpa using h1
        have hkey : lowerStr g.id = k := by
          rcases Bool.and_eq_true_iff.mp hf with ⟨_, h2⟩
          simpa using h2
        have hins : insertGame t0 g = insertAssoc t0 (lowerStr g.id) g := by
          simp [insertGame, hid]
        rw [hins, hkey, lookupAssoc_insert_self]
      · rw [hlast, some_or_eq]
        rcases hfe : rest.filter (fun g => !g.id.isEmpty && lowerStr g.id == k)
          with _ | ⟨g1, rest1⟩
        · rw [hfe] at hlast; simp at hlast
        · rw [hfe] at hlast
          rw [hfe, List.getLast?_cons_cons, hlast, some_or_eq]
    · rw [if_neg hf]
      have hins : lookupAssoc (insertGame t0 g) k = lookupAssoc t0 k := by
        by_cases hid : g.id.isEmpty = true
        · simp [insertGame, hid]
        · have hid' : g.id.isEmpty = false := Bool.eq_false_iff.mpr hid
          have hne : k ≠ lowerStr g.id := by
            intro hh
            apply hf
            simp [hid', hh]
          simp only [insertGame, hid', Bool.false_eq_true, if_false]
          exact lookupAssoc_insert_ne hne t0
      rw [hins]

/-! ## Navigation lemmas -/

theorem navRun_fields :
    ∀ (es : List NavEvent) (s : NavState),
      (navRun s es).currentGame =
        es.foldl (fun a e => match e with | .start id => some id | .complete _ => a)
          s.currentGame ∧
      (navRun s es).infoPanelGame =
        es.foldl (fun a e => match e with | .complete id => some id | .start _ => a)
          s.infoPanelGame ∧
      (navRun s es).playerGame =
        es.foldl (fun a e => match e with | .complete id => some id | .start _ => a)
          s.playerGame := by
  intro es
  induction es with
  | nil => intro s; exact ⟨rfl, rfl, rfl⟩
  | cons e rest ih =>
    intro s
    have h := ih (navStep s e)
    cases e with
    | start id => exact ⟨h.1, h.2.1, h.2.2⟩
    | complete id => exact ⟨h.1, h.2.1, h.2.2⟩

/-- Documents whose table is built from array values alone: a top-level
array, or an object whose truthy `nitromeGames` key disables Case 1. -/
def arrayOnly : JsonData → Bool
  | .jarrTop _ => true
  | .jobj es => hasTruthyNitrome es

theorem processGames_arrayOnly {d : JsonData} (hd : arrayOnly d = true) :
    processGames d = (arrayGames d).foldl insertGame [] := by
  cases d with
  | jarrTop gs => rfl
  | jobj es =>
    simp only [arrayOnly] at hd
    simp only [processGames, arrayGames]
    rw [if_pos hd]

/-! ## Claim theorems -/

/-- C1: for every outgoing address, `redirectUrl` scans `urlMappings` in
declared order; the first rule whose `from` occurs in the address is
applied via JavaScript `replace` (which rewrites the leftmost occurrence)
and the scan stops; with no matching rule the address passes through
unchanged; the default table maps
`https://jogos.ipv7.pt/faq.swf` to `https://cdn.xperia.pt/laserquest/faq.swf`. -/
theorem redirector_first_match_semantics :
    redirectUrl (str ("https://jogos.ipv7.pt/faq.swf")) =
      str ("https://cdn.xperia.pt/laserquest/faq.swf") ∧
    (∀ url : Str, (∀ m ∈ urlMappings, containsSub m.fromUrl url = false) →
      redirectUrl url = url) ∧
    (∀ (url : Str) (i : Nat) (hi : i < urlMappings.length),
      containsSub (urlMappings.get ⟨i, hi⟩).fromUrl url = true →
      (∀ m ∈ urlMappings.take i, containsSub m.fromUrl url = false) →
      redirectUrl url =
        replaceFirst (urlMappings.get ⟨i, hi⟩).fromUrl
          (urlMappings.get ⟨i, hi⟩).toUrl url) := by
  refine ⟨by decide, ?_, ?_⟩
  · intro url h
    exact applyMappings_no_match h
  · intro url i hi hc hprev
    exact applyMappings_first urlMappings i hi hc hprev

/-- Witness for C1: a non-matching address passes through; an address
containing the `hora.swf` rule's source is rewritten by that rule. -/
theorem redirector_first_match_semantics_witness :
    redirectUrl (str ("swf")) = str ("swf") ∧
    redirectUrl (str ("x https://jogos.ipv7.pt/hora.swf")) =
      replaceFirst (urlMappings.get ⟨3, by decide⟩).fromUrl
        (urlMappings.get ⟨3, by decide⟩).toUrl
        (str ("x https://jogos.ipv7.pt/hora.swf")) :=
  ⟨redirector_first_match_semantics.2.1 (str ("swf")) (by decide),
   redirector_first_match_semantics.2.2 (str ("x https://jogos.ipv7.pt/hora.swf"))
     3 (by decide) (by decide) (by decide)⟩

/-- C9: when the matched rule's `from` occurs more than once in the
address, only the leftmost occurrence is rewritten to `to`; the rest of
the address — including every later occurrence of `from` — is carried
over verbatim. -/
theorem redirector_leftmost_only (url pre mid suf : Str) (i : Nat)
    (hi : i < urlMappings.length)
    (hurl : url = pre ++ (urlMappings.get ⟨i, hi⟩).fromUrl ++
      (mid ++ (urlMappings.get ⟨i, hi⟩).fromUrl ++ suf))
    (hprev : ∀ m ∈ urlMappings.take i, containsSub m.fromUrl url = false)
    (hleft : ∀ pre' suf',
      url = pre' ++ (urlMappings.get ⟨i, hi⟩).fromUrl ++ suf' →
      pre.length ≤ pre'.length) :
    redirectUrl url =
      pre ++ (urlMappings.get ⟨i, hi⟩).toUrl ++
        (mid ++ (urlMappings.get ⟨i, hi⟩).fromUrl ++ suf) := by
  have hc : containsSub (urlMappings.get ⟨i, hi⟩).fromUrl url = true := by
    rw [hurl, List.append_assoc]
    exact containsSub_append _ _ _
  have h1 := applyMappings_first urlMappings i hi hc hprev
  simp only [redirectUrl]
  rw [h1, hurl]
  exact replaceFirst_leftmost pre
    (mid ++ (urlMappings.get ⟨i, hi⟩).fromUrl ++ suf)
    (fun pre' suf' heq => hleft pre' suf' (hurl.trans heq))

/-- Witness for C9: the `nov.swf` rule applied to an address holding its
source twice rewrites only the first occurrence. -/
theorem redirector_leftmost_only_witness :
    redirectUrl (str ("https://jogos.ipv7.pt/nov.swf https://jogos.ipv7.pt/nov.swf")) =
      str ("https://cdn.xperia.pt/laserquest/nov.swf https://jogos.ipv7.pt/nov.swf") := by
  have h := redirector_leftmost_only
    (str ("https://jogos.ipv7.pt/nov.swf https://jogos.ipv7.pt/nov.swf"))
    [] (str (" ")) [] 4 (by decide) (by decide) (by decide)
    (fun pre' suf' _ => Nat.zero_le _)
  rw [h]
  decide

/-- C2 counterexample: the claim's second pass compares
`normalize(rawKey)` with `normalize(displayName)`, but the code compares
`makeUrlFriendly(name)` with the merely lower-cased raw key.  For the
key `"A.B"` and an entry named `"a b"` the normalized forms agree
(`"a-b"`), no id matches, yet resolution returns `none`. -/
theorem resolver_normalized_key_counterexample :
    wfTable [(str ("x"), ⟨str ("x"), str ("a b"), str ("p")⟩)] ∧
    lowerStr (str ("x")) ≠ lowerStr (str ("A.B")) ∧
    makeUrlFriendly (str ("A.B")) = makeUrlFriendly (str ("a b")) ∧
    findGameByUrlName [(str ("x"), ⟨str ("x"), str ("a b"), str ("p")⟩)] (str ("A.B")) =
      none := by
  refine ⟨?_, by decide, by decide, by decide⟩
  constructor
  · decide
  · decide

/-- C2 (amended): on a well-formed table, an entry whose id matches the
raw key case-insensitively always wins (through the direct keyed lookup,
regardless of entry order or competing name matches); only when no
entry's id matches does the resolver scan display names in declaration
order, comparing `normalize(displayName)` against the *lower-cased* (not
normalized) raw key, and it returns `none` when that scan also fails. -/
theorem resolver_id_pass_then_name_scan (tbl : Table) (raw : Str)
    (hwf : wfTable tbl) (hraw : raw ≠ []) :
    (∀ k g, (k, g) ∈ tbl → lowerStr g.id = lowerStr raw →
      findGameByUrlName tbl raw = some g) ∧
    ((∀ kg ∈ tbl, lowerStr kg.2.id ≠ lowerStr raw) →
      findGameByUrlName tbl raw = nameScan tbl (lowerStr raw)) ∧
    ((∀ kg ∈ tbl, lowerStr kg.2.id ≠ lowerStr raw) →
      (∀ kg ∈ tbl, ¬(¬kg.2.name.isEmpty = true ∧
        makeUrlFriendly kg.2.name = lowerStr raw)) →
      findGameByUrlName tbl raw = none) :=
  ⟨fun _ _ hm hid => resolver_id_hit hwf hm hid hraw,
   fun hno => resolver_no_id hwf hno hraw,
   fun hno hname => (resolver_no_id hwf hno hraw).trans (nameScan_none hname)⟩

/-- Witness for C2 (amended): the entry whose name matches comes first,
the entry whose id matches comes second, and the id match wins. -/
theorem resolver_id_pass_then_name_scan_witness :
    findGameByUrlName
      [(str ("a"), ⟨str ("a"), str ("B"), str ("p1")⟩),
       (str ("b"), ⟨str ("b"), str ("x"), str ("p2")⟩)] (str ("B")) =
      some ⟨str ("b"), str ("x"), str ("p2")⟩ :=
  (resolver_id_pass_then_name_scan
    [(str ("a"), ⟨str ("a"), str ("B"), str ("p1")⟩),
     (str ("b"), ⟨str ("b"), str ("x"), str ("p2")⟩)] (str ("B"))
    (by constructor <;> decide) (by decide)).1
    (str ("b")) ⟨str ("b"), str ("x"), str ("p2")⟩ (by decide) (by decide)

/-- C3: on a table built by `loadGamesData` from a document in the
spec's catalog shape, resolving an entry's stored id — in original or
lower case — returns that entry, and a key matching no id
case-insensitively and no normalized display name resolves to `none`. -/
theorem resolver_roundtrip_and_notfound (d : JsonData) (hd : wfSource d = true) :
    (∀ k e, (k, e) ∈ processGames d →
      findGameByUrlName (processGames d) e.id = some e ∧
      findGameByUrlName (processGames d) (lowerStr e.id) = some e) ∧
    (∀ key : Str,
      (∀ kg ∈ processGames d, lowerStr kg.2.id ≠ lowerStr key) →
      (∀ kg ∈ processGames d, makeUrlFriendly kg.2.name ≠ makeUrlFriendly key) →
      findGameByUrlName (processGames d) key = none) := by
  have hwf := wfSource_processGames hd
  constructor
  · intro k e hmem
    have hid := (hwf.2 (k, e) hmem).1
    exact ⟨resolver_id_hit hwf hmem rfl hid,
      resolver_id_hit hwf hmem (lowerStr_idem e.id).symm (lowerStr_ne_nil hid)⟩
  · intro key hno hname
    by_cases hk : key = []
    · subst hk
      rfl
    · rw [resolver_no_id hwf hno hk]
      apply nameScan_none
      intro kg hm hcontra
      apply hname kg hm
      have h2 : makeUrlFriendly (makeUrlFriendly kg.2.name) =
          makeUrlFriendly (lowerStr key) := by rw [hcontra.2]
      rwa [makeUrlFriendly_idem, makeUrlFriendly_lowerStr] at h2

/-- Witness for C3: a one-entry `nitromeGames` catalog resolves the
lower-cased id back to its entry. -/
theorem resolver_roundtrip_and_notfound_witness :
    findGameByUrlName
      (processGames (.jobj [(str ("nitromeGames"),
        .jarr [⟨str ("Aquanaut"), str ("Aquanaut"), str ("a.swf")⟩])]))
      (str ("aquanaut")) =
      some ⟨str ("Aquanaut"), str ("Aquanaut"), str ("a.swf")⟩ := by
  have h := (resolver_roundtrip_and_notfound
    (.jobj [(str ("nitromeGames"),
      .jarr [⟨str ("Aquanaut"), str ("Aquanaut"), str ("a.swf")⟩])])
    (by decide)).1 (str ("aquanaut"))
    ⟨str ("Aquanaut"), str ("Aquanaut"), str ("a.swf")⟩ (by decide)
  have heq : lowerStr (str ("Aquanaut")) = str ("aquanaut") := by decide
  have h2 := h.2
  rwa [heq] at h2

/-- C4 counterexample: `createSlug` does not implement the spec's
normalization — the underscore is outside `[a-z0-9]` so the spec maps
`"a_b"` to `"a-b"`, but `createSlug` keeps it unchanged. -/
theorem createSlug_underscore_counterexample :
    createSlug (str ("a_b")) = str ("a_b") ∧
    normalizeSpec (str ("a_b")) = str ("a-b") ∧
    str ("a_b") ≠ str ("a-b") := by
  refine ⟨by decide, by decide, by decide⟩

/-- C4 (amended): the Resolver's `makeUrlFriendly` implements the spec's
normalization exactly (lower-case, collapse runs outside `[a-z0-9]` to a
single hyphen, strip boundary hyphens), and maps whitespace-only input
to the empty string.  The enhancer's `createSlug` also lower-cases and
maps whitespace-only input to empty, but it keeps underscores and
deletes (rather than hyphenates) other special characters, hyphenating
only whitespace runs. -/
theorem normalizer_contract_amended :
    (∀ s : Str, makeUrlFriendly s = normalizeSpec s) ∧
    (∀ s : Str, (∀ c ∈ s, isSpace c = true) →
      makeUrlFriendly s = [] ∧ createSlug s = []) ∧
    createSlug (str ("a_b")) = str ("a_b") ∧
    createSlug (str ("a.b")) = str ("ab") ∧
    createSlug (str ("a b")) = str ("a-b") :=
  ⟨makeUrlFriendly_eq_normalizeSpec,
   fun _ h => ⟨makeUrlFriendly_all_space h, createSlug_all_space h⟩,
   by decide, by decide, by decide⟩

/-- Witness for C4 (amended): whitespace-only input maps to empty for
both functions. -/
theorem normalizer_contract_amended_witness :
    makeUrlFriendly (str ("  ")) = [] ∧ createSlug (str ("  ")) = [] :=
  normalizer_contract_amended.2.1 (str ("  ")) (by decide)

/-- C5: both the Resolver's normalizer and the enhancer's slug function
are idempotent. -/
theorem normalize_idempotent (s : Str) :
    makeUrlFriendly (makeUrlFriendly s) = makeUrlFriendly s ∧
    createSlug (createSlug s) = createSlug s :=
  ⟨makeUrlFriendly_idem s, createSlug_idem s⟩

/-- C6 counterexample: navigating to `faq` then immediately to `hora`,
with `hora`'s load completing first and `faq`'s stale completion
arriving last, leaves `currentGame = hora` but rewrites the info panel
and the player back to `faq` — the UI regresses, because no completion
is tagged or discarded. -/
theorem nav_stale_completion_counterexample :
    (navRun navInit [.start (str ("faq")), .start (str ("hora")),
      .complete (str ("hora")), .complete (str ("faq"))]).currentGame =
        some (str ("hora")) ∧
    (navRun navInit [.start (str ("faq")), .start (str ("hora")),
      .complete (str ("hora")), .complete (str ("faq"))]).infoPanelGame =
        some (str ("faq")) ∧
    (navRun navInit [.start (str ("faq")), .start (str ("hora")),
      .complete (str ("hora")), .complete (str ("faq"))]).playerGame =
        some (str ("faq")) ∧
    str ("faq") ≠ str ("hora") := by
  refine ⟨by decide, by decide, by decide, by decide⟩

/-- C6 (amended): `currentGame` always holds the most recently *issued*
navigation (it is assigned synchronously before the await), but the info
panel and player always show the most recently *completed* load; there
are no sequence numbers and stale completions are applied, so a
superseded load that finishes last overwrites the UI. -/
theorem nav_last_issued_vs_last_completed :
    (∀ es : List NavEvent,
      (navRun navInit es).currentGame = lastStarted es ∧
      (navRun navInit es).infoPanelGame = lastCompleted es ∧
      (navRun navInit es).playerGame = lastCompleted es) ∧
    (∀ A B : Str,
      (navRun navInit [.start A, .start B, .complete B, .complete A]).currentGame =
        some B ∧
      (navRun navInit [.start A, .start B, .complete B, .complete A]).infoPanelGame =
        some A ∧
      (navRun navInit [.start A, .start B, .complete B, .complete A]).playerGame =
        some A) := by
  constructor
  · intro es
    exact navRun_fields es navInit
  · intro A B
    exact ⟨rfl, rfl, rfl⟩

/-- C7: one `addToRecentlyPlayed` step from a list of at most 10 ids
keeps the bound, moves a re-inserted id to the front without
duplicating it, and drops the oldest (last) entry when the bound is hit
by a fresh id. -/
theorem recently_played_invariants (l : List Str) (gameId : Str)
    (hlen : l.length ≤ 10) :
    (addToRecentlyPlayed l gameId).length ≤ 10 ∧
    (gameId ∈ l →
      addToRecentlyPlayed l gameId =
        gameId :: l.filter (fun id => id ≠ gameId) ∧
      (addToRecentlyPlayed l gameId).count gameId = 1) ∧
    (gameId ∉ l → l.length = 10 →
      addToRecentlyPlayed l gameId = gameId :: l.dropLast) := by
  refine ⟨?_, ?_, ?_⟩
  · simp only [addToRecentlyPlayed]
    by_cases hlong : (gameId :: l.filter (fun id => id ≠ gameId)).length > 10
    · rw [if_pos hlong, List.length_dropLast]
      have := List.length_filter_le (fun id => decide (id ≠ gameId)) l
      simp only [List.length_cons]
      omega
    · rw [if_neg hlong]
      omega
  · intro hmem
    have hlt : (l.filter (fun id => id ≠ gameId)).length < l.length :=
      List.length_filter_lt_length_iff_exists.mpr ⟨gameId, hmem, by simp⟩
    have hshort : ¬((gameId :: l.filter (fun id => id ≠ gameId)).length > 10) := by
      simp only [List.length_cons]
      omega
    have heq : addToRecentlyPlayed l gameId =
        gameId :: l.filter (fun id => id ≠ gameId) := by
      simp only [addToRecentlyPlayed]
      rw [if_neg hshort]
    refine ⟨heq, ?_⟩
    rw [heq, List.count_cons_self]
    have hnot : gameId ∉ l.filter (fun id => id ≠ gameId) := by
      intro hh
      have := (List.mem_filter.mp hh).2
      simp at this
    rw [List.count_eq_zero.mpr hnot]
  · intro hnmem hfull
    have hfe : l.filter (fun id => id ≠ gameId) = l :=
      List.filter_eq_self.mpr
        (fun a ha => by
          simp only [decide_eq_true_eq]
          intro hh
          exact hnmem (hh ▸ ha))
    have hne : l ≠ [] := by
      intro hh
      rw [hh] at hfull
      simp at hfull
    simp only [addToRecentlyPlayed, hfe]
    rw [if_pos (by simp [hfull]), List.dropLast_cons_of_ne_nil hne]

/-- Witness for C7: re-inserting a present id keeps the bound. -/
theorem recently_played_invariants_witness :
    (addToRecentlyPlayed [str ("a"), str ("b")] (str ("b"))).length ≤ 10 :=
  (recently_played_invariants [str ("a"), str ("b")] (str ("b")) (by decide)).1

/-- C8: in the table `loadGamesData` builds, every array value's games
are merged under their lower-cased ids; a key reached by at least one
array game holds the *last* processed array game with that key
(last-write-wins, ids compared lower-cased, id-less games skipped), and
for documents without the legacy direct-object pass a key matched by no
array game is absent. -/
theorem table_merge_last_write_wins :
    (∀ (d : JsonData) (k : Str),
      (∃ g ∈ arrayGames d, ¬g.id.isEmpty = true ∧ lowerStr g.id = k) →
      lookupAssoc (processGames d) k =
        ((arrayGames d).filter
          (fun g => !g.id.isEmpty && lowerStr g.id == k)).getLast?) ∧
    (∀ (d : JsonData) (k : Str), arrayOnly d = true →
      (∀ g ∈ arrayGames d, ¬(¬g.id.isEmpty = true ∧ lowerStr g.id = k)) →
      lookupAssoc (processGames d) k = none) := by
  constructor
  · intro d k hex
    have hrep : ∃ t0 : Table,
        processGames d = (arrayGames d).foldl insertGame t0 := by
      cases d with
      | jobj es => exact ⟨_, rfl⟩
      | jarrTop gs => exact ⟨[], rfl⟩
    rcases hrep with ⟨t0, ht0⟩
    rw [ht0, lookup_foldl_insertGame]
    rcases hlast : ((arrayGames d).filter
        (fun g => !g.id.isEmpty && lowerStr g.id == k)).getLast? with _ | gl
    · exfalso
      have hfe := List.getLast?_eq_none_iff.mp hlast
      rcases hex with ⟨g, hg, hid, hkey⟩
      have : g ∈ (arrayGames d).filter
          (fun g => !g.id.isEmpty && lowerStr g.id == k) := by
        apply List.mem_filter.mpr
        refine ⟨hg, ?_⟩
        simp only [Bool.and_eq_true, beq_iff_eq]
        exact ⟨by simpa using hid, hkey⟩
      rw [hfe] at this
      simp at this
    · rw [hlast, some_or_eq]
  · intro d k hao hno
    rw [processGames_arrayOnly hao, lookup_foldl_insertGame]
    have hfe : (arrayGames d).filter
        (fun g => !g.id.isEmpty && lowerStr g.id == k) = [] := by
      rw [List.filter_eq_nil_iff]
      intro g hg
      intro hh
      apply hno g hg
      simp only [Bool.and_eq_true, beq_iff_eq] at hh
      exact ⟨by simpa using hh.1, hh.2⟩
    rw [hfe]
    rfl

/-- Witness for C8: two arrays contribute games whose ids collide after
lower-casing; the later one is the value stored under the shared key. -/
theorem table_merge_last_write_wins_witness :
    lookupAssoc
      (processGames (.jobj
        [(str ("nitromeGames"), .jarr [⟨str ("X"), str ("first"), str ("1.swf")⟩]),
         (str ("more"), .jarr [⟨str ("x"), str ("second"), str ("2.swf")⟩])]))
      (str ("x")) = some ⟨str ("x"), str ("second"), str ("2.swf")⟩ := by
  have h := table_merge_last_write_wins.1
    (.jobj
      [(str ("nitromeGames"), .jarr [⟨str ("X"), str ("first"), str ("1.swf")⟩]),
       (str ("more"), .jarr [⟨str ("x"), str ("second"), str ("2.swf")⟩])])
    (str ("x"))
    ⟨⟨str ("x"), str ("second"), str ("2.swf")⟩, by decide⟩
  rw [h]
  decide

/-- C10: `GameUrlLoader.getGames` returns `null` before the catalog is
loaded, and otherwise allocates a fresh shallow copy of the catalog
object, so writing a property on the returned object leaves the
internal catalog object untouched. -/
theorem getGames_fresh_copy :
    (∀ h : Heap, getGames h none = (h, none)) ∧
    (∀ (h : Heap) (a : Nat), a < h.objs.length →
      (getGames h (some a)).2 = some h.objs.length ∧
      h.objs.length ≠ a ∧
      readObj (getGames h (some a)).1 h.objs.length = readObj h a ∧
      readObj (getGames h (some a)).1 a = readObj h a ∧
      (∀ (k : Str) (g : Game),
        readObj (writeField (getGames h (some a)).1 h.objs.length k g) a =
          readObj h a)) := by
  constructor
  · intro h; rfl
  · intro h a ha
    refine ⟨rfl, by omega, ?_, ?_, ?_⟩
    · show ((h.objs ++ [readObj h a])[h.objs.length]?).getD [] = readObj h a
      rw [List.getElem?_concat_length]
      rfl
    · show ((h.objs ++ [readObj h a])[a]?).getD [] = readObj h a
      rw [List.getElem?_append_left ha]
      rfl
    · intro k g
      show (((h.objs ++ [readObj h a]).set h.objs.length
          (insertAssoc (readObj (getGames h (some a)).1 h.objs.length) k g))[a]?).getD []
          = readObj h a
      rw [List.getElem?_set_ne (by omega), List.getElem?_append_left ha]
      rfl

/-- Witness for C10: on a one-object heap, the copy sits at a fresh
address and reads back the original properties. -/
theorem getGames_fresh_copy_witness :
    readObj (getGames ⟨[[(str ("k"), ⟨str ("i"), str ("n"), str ("p")⟩)]]⟩ (some 0)).1 1 =
      readObj ⟨[[(str ("k"), ⟨str ("i"), str ("n"), str ("p")⟩)]]⟩ 0 :=
  (getGames_fresh_copy.2 ⟨[[(str ("k"), ⟨str ("i"), str ("n"), str ("p")⟩)]]⟩ 0
    (by decide)).2.2.1

end RufflePlayer
